import Mathlib

/-!
Verification development for the Tehreer-Cocoa repository.

The repository's sole source file is `Source/BridgingHeader.h`, a bridging
header that `#include`s the native libraries the binding layer calls into.
The first part of this file embeds that header verbatim as data and proves
structural facts about it.  The second part embeds, following the
specification's own component design (the specification describes the text
segmentation and shaping orchestration core that the bridging header's
libraries serve), the shaping pipeline: run segmentation, line-break
location, shaping, line composition and position extraction.
-/

namespace Tehreer

/-! ## Part 1: the bridging header as data -/

/-- The FreeType `FT_*_H` macro headers used by the bridging header. -/
inductive FtMacro
  | advances
  | freetype
  | sfntNames
  | sizes
  | stroker
  | system
  | truetypeTables
  | types
deriving DecidableEq, Repr

/-- Target of an `#include` directive in the bridging header. -/
inductive IncludeTarget
  | ft2build
  | ftMacro (m : FtMacro)
  | linebreak
  | sheenBidi
  | sheenFigure
deriving DecidableEq, Repr

/-- The four third-party library families the header aggregates. -/
inductive LibraryFamily
  | freeType
  | lineBreakLib
  | sheenBidiLib
  | sheenFigureLib
deriving DecidableEq, Repr

/-- Family of an include target. -/
def IncludeTarget.family : IncludeTarget → LibraryFamily
  | .ft2build => .freeType
  | .ftMacro _ => .freeType
  | .linebreak => .lineBreakLib
  | .sheenBidi => .sheenBidiLib
  | .sheenFigure => .sheenFigureLib

/-- One line of the C header, classified.  The constructors cover every kind
of construct a C header could contribute: comment text, blank lines,
`#include` directives, and the constructs the specification says are absent
(type declarations, function definitions, control flow, error handling). -/
inductive HeaderLine
  | commentText
  | blank
  | includeDirective (t : IncludeTarget)
  | typeDeclaration
  | functionDefinition
  | controlFlowStatement
  | errorHandlingConstruct
deriving DecidableEq, Repr

/-- `Source/BridgingHeader.h`, transcribed line by line: a fifteen-line
license comment block, then blank-separated groups of `#include`
directives for FreeType, libunibreak, SheenBidi and SheenFigure. -/
def bridgingHeader : List HeaderLine :=
  [.commentText, .commentText, .commentText, .commentText, .commentText,
   .commentText, .commentText, .commentText, .commentText, .commentText,
   .commentText, .commentText, .commentText, .commentText, .commentText,
   .blank,
   .includeDirective .ft2build,
   .includeDirective (.ftMacro .advances),
   .includeDirective (.ftMacro .freetype),
   .includeDirective (.ftMacro .sfntNames),
   .includeDirective (.ftMacro .sizes),
   .includeDirective (.ftMacro .stroker),
   .includeDirective (.ftMacro .system),
   .includeDirective (.ftMacro .truetypeTables),
   .includeDirective (.ftMacro .types),
   .blank,
   .includeDirective .linebreak,
   .blank,
   .includeDirective .sheenBidi,
   .includeDirective .sheenFigure]

/-- Whether a header line is inert text (comment or blank). -/
def HeaderLine.isInert : HeaderLine → Bool
  | .commentText => true
  | .blank => true
  | _ => false

/-- Whether a header line is an `#include` directive. -/
def HeaderLine.isInclude : HeaderLine → Bool
  | .includeDirective _ => true
  | _ => false

/-- Whether a header line defines a data structure, control flow, or error
handling of its own. -/
def HeaderLine.isOriginalLogic : HeaderLine → Bool
  | .typeDeclaration => true
  | .functionDefinition => true
  | .controlFlowStatement => true
  | .errorHandlingConstruct => true
  | _ => false

/-- The include targets of the header, in file order. -/
def headerIncludes : List IncludeTarget :=
  bridgingHeader.filterMap fun l =>
    match l with
    | .includeDirective t => some t
    | _ => none

/-- The `FT_*_H` macros that `ft2build.h` is documented by FreeType to make
available (FreeType's public-header macro contract: including `ft2build.h`
first defines every `FT_*_H` header macro). -/
def ft2buildDefines : FtMacro → Bool := fun _ => true

/-- An `#include FT_X_H` directive at position `i` of the include list is
resolved when an earlier directive defines the macro it uses. -/
def includeUseResolved (incs : List IncludeTarget) (i : Nat) : Bool :=
  match incs.get? i with
  | some (.ftMacro m) =>
      (List.range i).any fun j =>
        match incs.get? j with
        | some .ft2build => ft2buildDefines m
        | _ => false
  | _ => true

/-! ## Part 2: the shaping pipeline, modelled from the specification

The pipeline code itself is not in the repository (the bridging header only
names the native libraries it wraps), so every definition below is modelled
from the specification's component design. -/

/-- Modelled from the spec: Unicode script property values (§6 property
tables).  `common` and `inherited` are the neutral values that inherit a
concrete script during segmentation; a handful of concrete scripts suffice
for the model. -/
inductive Script
  | common
  | inherited
  | latin
  | arabic
  | devanagari
deriving DecidableEq, Repr

/-- Whether a script value is neutral (`Common` or `Inherited`). -/
def Script.isNeutral : Script → Bool
  | .common => true
  | .inherited => true
  | _ => false

/-- Modelled from the spec: Unicode line-breaking classes (§4.2), reduced to
the classes the pair table distinguishes: hard line terminators (`bk`),
spaces (`sp`), and ordinary alphabetic codepoints (`al`). -/
inductive BreakClass
  | bk
  | sp
  | al
deriving DecidableEq, Repr

/-- Classification of a candidate line-break boundary (§3 data model). -/
inductive BreakKind
  | mandatory
  | optional
  | prohibited
deriving DecidableEq, Repr

/-- Modelled from the spec: the per-codepoint style attributes carried by a
`TextBuffer` (font reference and size; §3 data model). -/
structure Style where
  font : Nat
  size : Nat
deriving DecidableEq, Repr

/-- Modelled from the spec: a `TextBuffer` owns an immutable sequence of
Unicode codepoints plus an index-aligned array of style attributes (§3).
The alignment invariant `styles.length = codepoints.length` is carried as a
hypothesis where a theorem needs it. -/
structure TextBuffer where
  codepoints : List Nat
  styles : List Style
deriving DecidableEq, Repr

/-- Modelled from the spec: the read-only Unicode property tables injected
at startup (§6 external interfaces). -/
structure Tables where
  scriptOf : Nat → Script
  lineBreakClassOf : Nat → BreakClass

/-- Modelled from the spec: the resolved attributes of one buffer position,
on which segmentation splits (script, bidi embedding level, style; §4.1). -/
structure Attr where
  script : Script
  level : Nat
  style : Style
deriving DecidableEq, Repr

/-- Modelled from the spec: a `Run` is a half-open `[start, stop)` index
range into the buffer tagged with its resolved attributes (§3). -/
structure Run where
  start : Nat
  stop : Nat
  attr : Attr
deriving DecidableEq, Repr

/-- Direction of a run: even embedding level is LTR, odd is RTL (glossary). -/
def Run.isRTL (r : Run) : Bool := r.attr.level % 2 = 1

/-- Modelled from the spec: a `GlyphCluster` maps the source codepoint range
`[start, stop)` to output glyph ids, and owns its advance on the primary
axis, in font design units (§3, §4.3). -/
structure GlyphCluster where
  start : Nat
  stop : Nat
  glyphs : List Nat
  advance : Nat
deriving DecidableEq, Repr

/-- Modelled from the spec: a break opportunity is a codepoint index with a
classification (§3). -/
structure BreakOpportunity where
  index : Nat
  kind : BreakKind
deriving DecidableEq, Repr

/-- Modelled from the spec: the error taxonomy (§7).  `MissingGlyph` is not
an error and so has no constructor: it is represented inline by the
placeholder glyph id 0. -/
inductive ShapingError
  | invalidEncoding
  | unsupportedScript
deriving DecidableEq, Repr

/-- Modelled from the spec: a codepoint value is valid when it is a Unicode
scalar value: at most `0x10FFFF` and not a (would-be unpaired) surrogate in
`[0xD800, 0xDFFF]` (§4.1 failure condition). -/
def validCodepoint (cp : Nat) : Bool :=
  decide (cp ≤ 0x10FFFF) && !(decide (0xD800 ≤ cp) && decide (cp ≤ 0xDFFF))

/-- First non-neutral script of a list, if any. -/
def firstConcrete : List Script → Option Script
  | [] => none
  | s :: rest => if s.isNeutral then firstConcrete rest else some s

/-- Modelled from the spec: forward pass of script resolution.  A neutral
(`Common`/`Inherited`) codepoint takes the script carried from the
preceding position; a concrete codepoint replaces the carried script
(§4.1 ties and edge cases). -/
def resolveFrom (prev : Script) : List Script → List Script
  | [] => []
  | s :: rest =>
      if s.isNeutral then prev :: resolveFrom prev rest
      else s :: resolveFrom s rest

/-- Modelled from the spec: resolve `Common`/`Inherited` scripts over a
buffer.  Positions before the first concrete script inherit the following
run's script, i.e. the first concrete script; a buffer with no concrete
script at all resolves uniformly to `Common` (§4.1). -/
def resolveScripts (raw : List Script) : List Script :=
  match firstConcrete raw with
  | none => raw.map fun _ => Script.common
  | some s0 => resolveFrom s0 raw

/-- Zip the three per-position attribute sources into `Attr` records. -/
def zipAttrs : List Script → List Nat → List Style → List Attr
  | s :: ss, l :: ls, st :: sts => ⟨s, l, st⟩ :: zipAttrs ss ls sts
  | _, _, _ => []

/-- Modelled from the spec: split an attribute list into maximal runs of
equal attributes, starting at buffer index `i` (§4.1: split on any boundary
where level, script, or style changes). -/
def buildRuns : List Attr → Nat → List Run
  | [], _ => []
  | a :: rest, i =>
      match buildRuns rest (i + 1) with
      | [] => [⟨i, i + 1, a⟩]
      | r :: rs =>
          if r.attr = a then ⟨i, r.stop, a⟩ :: rs
          else ⟨i, i + 1, a⟩ :: r :: rs

/-- Modelled from the spec: the narrow interface to the external
outline/metrics provider for one loaded font (§6): the codepoint-to-glyph
mapping (`none` when the font has no glyph for the codepoint), per-glyph
advances on the primary axis in design units, the font's defined fallback
advance used for the missing-glyph placeholder, and the pair-ligature table
consulted by the complex shaper (§4.3). -/
structure Font where
  cmap : Nat → Option Nat
  advanceOf : Nat → Nat
  fallbackAdvance : Nat
  liga : Nat → Nat → Option Nat

/-- Modelled from the spec: the shaper variants of the tagged-variant
registry (§4.3, §9): simple 1:1 codepoint-to-glyph mapping, or complex
shaping with contextual ligation. -/
inductive ShaperKind
  | simple
  | complex
deriving DecidableEq, Repr

/-- Modelled from the spec: the shaping environment: injected property
tables, the external bidirectional-algorithm pass producing one resolved
embedding level per codepoint (§4.1, §6), the per-script shaper registry
(§4.3, §9), and font resolution for a style's font reference (§6). -/
structure ShapingEnv where
  tables : Tables
  bidi : List Nat → List Nat
  registry : Script → Option ShaperKind
  getFont : Nat → Font

/-- Modelled from the spec: `segment(buffer)` (§4.1).  Rejects buffers with
invalid codepoint values with `InvalidEncoding`; otherwise resolves scripts
(with `Common`/`Inherited` inheritance), obtains resolved embedding levels
from the external bidirectional pass, and splits on every boundary where
script, level or style changes. -/
def segment (env : ShapingEnv) (buffer : TextBuffer) :
    Except ShapingError (List Run) :=
  if buffer.codepoints.all validCodepoint then
    let scripts := resolveScripts (buffer.codepoints.map env.tables.scriptOf)
    let levels := env.bidi buffer.codepoints
    .ok (buildRuns (zipAttrs scripts levels buffer.styles) 0)
  else
    .error .invalidEncoding

/-- Modelled from the spec: the pair-table step of the line-break state
machine (§4.2): after a hard terminator the boundary is mandatory, after a
space it is optional, between ordinary codepoints it is prohibited.
Mandatory takes priority over optional at the same index by construction. -/
def classifyBoundary (prev next : BreakClass) : BreakKind :=
  match prev, next with
  | .bk, _ => .mandatory
  | .sp, _ => .optional
  | _, _ => .prohibited

/-- Boundary classification of each index `i, i+1, ...` between consecutive
line-break classes. -/
def breaksFrom : List BreakClass → Nat → List BreakOpportunity
  | a :: b :: rest, i =>
      ⟨i, classifyBoundary a b⟩ :: breaksFrom (b :: rest) (i + 1)
  | _, _ => []

/-- Modelled from the spec: `findBreaks(buffer)` (§4.2): assign the
line-break class per codepoint, then run the pair table over consecutive
classes, one `BreakOpportunity` per candidate boundary.  A pure function of
the buffer's codepoints. -/
def findBreaks (t : Tables) (buffer : TextBuffer) : List BreakOpportunity :=
  breaksFrom (buffer.codepoints.map t.lineBreakClassOf) 1

/-- Glyph id for a codepoint: the font's mapping, or the missing-glyph
placeholder 0 when the font has no mapping (§4.3). -/
def glyphFor (f : Font) (cp : Nat) : Nat := (f.cmap cp).getD 0

/-- Advance for a codepoint: the mapped glyph's advance, or the font's
defined fallback advance for the missing-glyph placeholder (§4.3, §8). -/
def advanceFor (f : Font) (cp : Nat) : Nat :=
  match f.cmap cp with
  | some g => f.advanceOf g
  | none => f.fallbackAdvance

/-- Modelled from the spec: the simple shaper variant (§4.3): direct 1:1
codepoint-to-glyph correspondence, one cluster per codepoint, starting at
buffer index `i`. -/
def simpleShape (f : Font) (i : Nat) : List Nat → List GlyphCluster
  | [] => []
  | cp :: rest =>
      ⟨i, i + 1, [glyphFor f cp], advanceFor f cp⟩ :: simpleShape f (i + 1) rest

/-- Ligature lookup for two adjacent codepoints: the font's pair-ligature
table, consulted only when both codepoints have glyph mappings — the
missing-glyph placeholder never participates in a ligature, since §4.3's
placeholder guarantee holds for every shaper variant. -/
def ligaFor (f : Font) (cp1 cp2 : Nat) : Option Nat :=
  match f.cmap cp1, f.cmap cp2 with
  | some g1, some g2 => f.liga g1 g2
  | _, _ => none

/-- Modelled from the spec: the complex shaper variant (§4.3): contextual
substitution by pair ligation — when the font ligates the glyphs of two
adjacent mapped codepoints, they form one two-codepoint cluster with the
ligature glyph; otherwise shaping proceeds one codepoint at a time.
Unmapped codepoints always get their own cluster with the placeholder
glyph 0 and the fallback advance, never an error. -/
def complexShape (f : Font) (i : Nat) : List Nat → List GlyphCluster
  | [] => []
  | [cp] => [⟨i, i + 1, [glyphFor f cp], advanceFor f cp⟩]
  | cp1 :: cp2 :: rest =>
      match ligaFor f cp1 cp2 with
      | some g =>
          ⟨i, i + 2, [g], f.advanceOf g⟩ :: complexShape f (i + 2) rest
      | none =>
          ⟨i, i + 1, [glyphFor f cp1], advanceFor f cp1⟩ ::
            complexShape f (i + 1) (cp2 :: rest)

/-- The codepoints of a run: the `[start, stop)` slice of the buffer. -/
def sliceRun (cps : List Nat) (r : Run) : List Nat :=
  (cps.drop r.start).take (r.stop - r.start)

/-- Modelled from the spec: `shape(run)` (§4.3): look the run's resolved
script up in the shaper registry; fail with `UnsupportedScript` when no
variant is registered, otherwise shape the run's codepoints with the
selected variant and the active font. -/
def shapeRun (env : ShapingEnv) (cps : List Nat) (r : Run) :
    Except ShapingError (List GlyphCluster) :=
  match env.registry r.attr.script with
  | none => .error .unsupportedScript
  | some .simple =>
      .ok (simpleShape (env.getFont r.attr.style.font) r.start (sliceRun cps r))
  | some .complex =>
      .ok (complexShape (env.getFont r.attr.style.font) r.start (sliceRun cps r))

/-- Modelled from the spec: a shaped run: a run together with its glyph
clusters, the unit the line composer packs into lines (§3, §4.4). -/
structure ShapedRun where
  run : Run
  clusters : List GlyphCluster
deriving DecidableEq, Repr

/-- Total advance of a shaped run on the primary axis. -/
def ShapedRun.width (sr : ShapedRun) : Nat :=
  (sr.clusters.map GlyphCluster.advance).sum

/-- Shape every run in order, aborting on the first failing run (the
pipeline entry used when the caller supplies no substitute; per-run scoping
is stated over `shapeRun` itself). -/
def shapeAllRuns (env : ShapingEnv) (cps : List Nat) :
    List Run → Except ShapingError (List ShapedRun)
  | [] => .ok []
  | r :: rest => do
      let cs ← shapeRun env cps r
      let srs ← shapeAllRuns env cps rest
      .ok (⟨r, cs⟩ :: srs)

/-- Reverse every maximal span of elements satisfying `p`, keeping the other
elements in place.  `acc` holds the current span already reversed. -/
def revSpansAux (p : ShapedRun → Bool) :
    List ShapedRun → List ShapedRun → List ShapedRun
  | [], acc => acc
  | r :: rest, acc =>
      if p r then revSpansAux p rest (r :: acc)
      else acc ++ r :: revSpansAux p rest []

/-- Reverse every maximal span of elements satisfying `p`. -/
def reverseSpans (p : ShapedRun → Bool) (rs : List ShapedRun) :
    List ShapedRun :=
  revSpansAux p rs []

/-- Apply the level-based reversal passes for levels `l, l-1, ..., 1`:
each pass reverses the maximal spans of runs whose embedding level is at
least the pass level (§4.4). -/
def applyLevels : Nat → List ShapedRun → List ShapedRun
  | 0, rs => rs
  | l + 1, rs => applyLevels l (reverseSpans (fun sr => l + 1 ≤ sr.run.attr.level) rs)

/-- Highest embedding level among the runs. -/
def maxLevel (rs : List ShapedRun) : Nat :=
  (rs.map fun sr => sr.run.attr.level).foldr Nat.max 0

/-- Modelled from the spec: reorder shaped runs into visual order with the
standard level-based reversal algorithm: reverse maximal spans of odd/high
embedding level, from the highest level down to 1 (§4.4). -/
def reorderVisual (rs : List ShapedRun) : List ShapedRun :=
  applyLevels (maxLevel rs) rs

/-- Modelled from the spec: a `Line` is an ordered sequence of shaped runs
in final visual order (§3).  Its advance width is the derived sum of its
runs' widths. -/
structure Line where
  runs : List ShapedRun
deriving DecidableEq, Repr

/-- Total advance width of a line on the primary axis. -/
def Line.width (l : Line) : Nat := (l.runs.map ShapedRun.width).sum

/-- Break classification of the boundary at codepoint index `i`: the kind
recorded by the break locator, or prohibited when there is no candidate
boundary there. -/
def breakKindAt (breaks : List BreakOpportunity) (i : Nat) : BreakKind :=
  match breaks.find? (fun b => b.index == i) with
  | some b => b.kind
  | none => .prohibited

/-- Whether a width fits within the maximum line width (`none` means
unbounded). -/
def fitsWidth (maxWidth : Option Nat) (w : Nat) : Bool :=
  match maxWidth with
  | none => true
  | some m => w ≤ m

/-- Greedy accumulation of one line (§4.4): `w` is the width accumulated so
far on the current (nonempty) line.  A mandatory boundary always terminates
the line; a prohibited boundary forces the next run onto the line (overflow
permitted); an optional boundary admits the run only when the accumulated
width still fits.  Returns the rest of the current line and the remaining
runs. -/
def takeLineAux (breaks : List BreakOpportunity) (maxWidth : Option Nat) :
    Nat → List ShapedRun → List ShapedRun × List ShapedRun
  | _, [] => ([], [])
  | w, r :: rest =>
      match breakKindAt breaks r.run.start with
      | .mandatory => ([], r :: rest)
      | .prohibited =>
          let p := takeLineAux breaks maxWidth (w + r.width) rest
          (r :: p.1, p.2)
      | .optional =>
          if fitsWidth maxWidth (w + r.width) then
            let p := takeLineAux breaks maxWidth (w + r.width) rest
            (r :: p.1, p.2)
          else ([], r :: rest)

/-- Pack shaped runs (already in visual order) into lines, with structural
fuel bounding the number of lines (one unit per line suffices since every
line consumes at least one run): each line starts with the next run
unconditionally (so an oversized run occupies a line by itself when the
following boundary is breakable) and accumulates greedily (§4.4). -/
def composeFromFuel (breaks : List BreakOpportunity) (maxWidth : Option Nat) :
    Nat → List ShapedRun → List Line
  | 0, _ => []
  | _ + 1, [] => []
  | fuel + 1, r :: rest =>
      let p := takeLineAux breaks maxWidth r.width rest
      ⟨r :: p.1⟩ :: composeFromFuel breaks maxWidth fuel p.2

/-- Pack shaped runs (already in visual order) into lines (§4.4). -/
def composeFrom (breaks : List BreakOpportunity) (maxWidth : Option Nat)
    (rs : List ShapedRun) : List Line :=
  composeFromFuel breaks maxWidth rs.length rs

/-- Modelled from the spec: `composeLines(runs, breaks, maxWidth)` (§4.4):
reorder the shaped runs into visual order by level-based reversal, then
greedily pack them into lines respecting the break opportunities and the
maximum line width. -/
def composeLines (breaks : List BreakOpportunity) (maxWidth : Option Nat)
    (runs : List ShapedRun) : List Line :=
  composeFrom breaks maxWidth (reorderVisual runs)

/-- Modelled from the spec: a positioned glyph in the single final
coordinate space (§4.5). -/
structure PositionedGlyph where
  glyphId : Nat
  x : Nat
  y : Nat
deriving DecidableEq, Repr

/-- Emit the glyphs of one line, accumulating the pen position from `x`. -/
def emitClusters (y : Nat) : Nat → List GlyphCluster → List PositionedGlyph
  | _, [] => []
  | x, c :: rest =>
      (c.glyphs.map fun g => ⟨g, x, y⟩) ++ emitClusters y (x + c.advance) rest

/-- Modelled from the spec: `extractPositions(lines)` (§4.5): walk lines in
visual order, reset the pen at each line's start, apply per-cluster
advances; a pure transform with no other effect. -/
def extractPositions (lines : List Line) : List PositionedGlyph :=
  (lines.enum.map fun li =>
    emitClusters li.1 0 ((li.2.runs.map ShapedRun.clusters).flatten)).flatten

/-- Modelled from the spec: the pipeline end to end (§2 data flow):
segment, shape each run, then compose lines consulting the break locator.
Encoding failures abort the whole request with no partial output. -/
def processBuffer (env : ShapingEnv) (buffer : TextBuffer)
    (maxWidth : Option Nat) : Except ShapingError (List Line) := do
  let runs ← segment env buffer
  let shaped ← shapeAllRuns env buffer.codepoints runs
  .ok (composeLines (findBreaks env.tables buffer) maxWidth shaped)

/-! ## Derived notions used by the statements -/

/-- The half-open index range of a run, as a pair. -/
def Run.range (r : Run) : Nat × Nat := (r.start, r.stop)

/-- The half-open source index range of a glyph cluster, as a pair. -/
def GlyphCluster.range (c : GlyphCluster) : Nat × Nat := (c.start, c.stop)

/-- A list of half-open ranges chains exactly from `s` to `e`: each range is
nonempty, starts where its predecessor stopped, the first starts at `s` and
the last stops at `e`.  This is the no-gap/no-overlap partition property. -/
def rangeChain : List (Nat × Nat) → Nat → Nat → Prop
  | [], s, e => s = e
  | p :: ps, s, e => p.1 = s ∧ p.1 < p.2 ∧ rangeChain ps p.2 e

/-- Whether the half-open range `p` contains index `i`. -/
def rangeHas (i : Nat) (p : Nat × Nat) : Bool :=
  decide (p.1 ≤ i) && decide (i < p.2)

/-- Whether a run contains buffer index `i`. -/
def runHas (i : Nat) (r : Run) : Bool := rangeHas i r.range

/-- Whether a glyph cluster's source range contains buffer index `i`. -/
def clusterHas (i : Nat) (c : GlyphCluster) : Bool := rangeHas i c.range

/-- Total width of a list of shaped runs. -/
def sumWidths (rs : List ShapedRun) : Nat := (rs.map ShapedRun.width).sum

/-- All glyph clusters of a composed line sequence, in visual order. -/
def lineClusters (lines : List Line) : List GlyphCluster :=
  (((lines.map Line.runs).flatten).map ShapedRun.clusters).flatten

/-- Total advance of all glyph clusters of a shaped run sequence, computed
independently of line composition. -/
def totalClusterAdvance (shaped : List ShapedRun) : Nat :=
  (((shaped.map ShapedRun.clusters).flatten).map GlyphCluster.advance).sum

/-- The run with its resolved script replaced by a caller-supplied
substitute (the fallback-script recovery path of §7). -/
def retag (r : Run) (s : Script) : Run :=
  ⟨r.start, r.stop, ⟨s, r.attr.level, r.attr.style⟩⟩

/-- Validity check of a whole line built greedily from accumulated width
`w`: every later run of the line joined it over a non-mandatory boundary,
and over an optional boundary only while the accumulated width still fit. -/
def okFrom (breaks : List BreakOpportunity) (maxWidth : Option Nat) :
    Nat → List ShapedRun → Bool
  | _, [] => true
  | w, r :: rest =>
      decide (breakKindAt breaks r.run.start ≠ .mandatory) &&
      (decide (breakKindAt breaks r.run.start = .prohibited) ||
        fitsWidth maxWidth (w + r.width)) &&
      okFrom breaks maxWidth (w + r.width) rest

/-! ## Concrete sample instances used by the witnesses -/

/-- A small concrete property table. -/
def sampleTables : Tables :=
  ⟨fun cp =>
      if cp = 3 then Script.common
      else if cp ≤ 9 then Script.latin
      else if cp ≤ 19 then Script.arabic
      else Script.devanagari,
    fun cp =>
      if cp = 9 then BreakClass.bk
      else if cp = 1 then BreakClass.sp
      else BreakClass.al⟩

/-- A small concrete font: codepoint 7 has no glyph, every other codepoint
maps to glyph `cp + 100`; glyph advances equal the glyph id; the fallback
advance is 11; no ligatures. -/
def sampleFont : Font :=
  ⟨fun cp => if cp = 7 then none else some (cp + 100),
    fun g => g, 11, fun _ _ => none⟩

/-- A small concrete shaping environment: codepoints at least 10 get
embedding level 1, the rest level 0; Arabic runs use the complex shaper,
Devanagari has no registered shaper, everything else uses the simple
shaper. -/
def sampleEnv : ShapingEnv :=
  ⟨sampleTables,
    fun cps => cps.map fun cp => if 10 ≤ cp then 1 else 0,
    fun s =>
      match s with
      | Script.arabic => some ShaperKind.complex
      | Script.devanagari => none
      | _ => some ShaperKind.simple,
    fun _ => sampleFont⟩

/-- A small concrete buffer: Latin, a `Common` codepoint, an Arabic (RTL)
codepoint, Latin again. -/
def sampleBuffer : TextBuffer :=
  ⟨[2, 3, 12, 4], [⟨0, 0⟩, ⟨0, 0⟩, ⟨0, 0⟩, ⟨0, 0⟩]⟩

/-- The default style shared by the sample runs. -/
def sampleStyle : Style := ⟨0, 0⟩

/-- First sample shaped run: the Latin `[0, 2)` run of `sampleBuffer`. -/
def srA : ShapedRun :=
  ⟨⟨0, 2, ⟨Script.latin, 0, sampleStyle⟩⟩,
    [⟨0, 1, [102], 102⟩, ⟨1, 2, [103], 103⟩]⟩

/-- Second sample shaped run: the Arabic `[2, 3)` run of `sampleBuffer`. -/
def srB : ShapedRun :=
  ⟨⟨2, 3, ⟨Script.arabic, 1, sampleStyle⟩⟩, [⟨2, 3, [112], 112⟩]⟩

/-- Third sample shaped run: the Latin `[3, 4)` run of `sampleBuffer`. -/
def srC : ShapedRun :=
  ⟨⟨3, 4, ⟨Script.latin, 0, sampleStyle⟩⟩, [⟨3, 4, [104], 104⟩]⟩

/-- The runs `segment` produces on `sampleBuffer`. -/
def sampleRuns : List Run := [srA.run, srB.run, srC.run]

/-- The shaped runs of `sampleBuffer`. -/
def sampleShaped : List ShapedRun := [srA, srB, srC]

/-- The lines `processBuffer` produces on `sampleBuffer` with no width
bound. -/
def sampleLines : List Line := [⟨sampleShaped⟩]

/-- A buffer containing an unpaired-surrogate codepoint value. -/
def invalidBuffer : TextBuffer := ⟨[0xD800], [⟨0, 0⟩]⟩

/-- A run resolved to a script with no registered shaper variant. -/
def devRun : Run := ⟨0, 1, ⟨Script.devanagari, 0, sampleStyle⟩⟩

/-- A run over the single codepoint 7, which `sampleFont` has no glyph
for. -/
def missingRun : Run := ⟨0, 1, ⟨Script.latin, 0, sampleStyle⟩⟩

/-- The same unmapped-codepoint run resolved to a complex-shaper script. -/
def missingArabicRun : Run := ⟨0, 1, ⟨Script.arabic, 0, sampleStyle⟩⟩

/-- An all-LTR (all level 0) shaped run list. -/
def ltrShaped : List ShapedRun := [srA, srC]

/-! ## Lemmas about range chains -/

theorem rangeChain_le : ∀ {ps : List (Nat × Nat)} {s e : Nat},
    rangeChain ps s e → s ≤ e
  | [], _, _, h => Nat.le_of_eq h
  | _ :: _, _, _, ⟨h1, h2, h3⟩ =>
      Nat.le_trans (h1 ▸ Nat.le_of_lt h2) (rangeChain_le h3)

theorem rangeChain_append {ps qs : List (Nat × Nat)} {s m e : Nat}
    (hp : rangeChain ps s m) (hq : rangeChain qs m e) :
    rangeChain (ps ++ qs) s e := by
  induction ps generalizing s with
  | nil =>
      simp only [rangeChain] at hp
      subst hp
      simpa using hq
  | cons p ps ih =>
      obtain ⟨h1, h2, h3⟩ := hp
      exact ⟨h1, h2, ih h3⟩

theorem rangeChain_bounds {ps : List (Nat × Nat)} {s e : Nat}
    (h : rangeChain ps s e) :
    ∀ p ∈ ps, s ≤ p.1 ∧ p.1 < p.2 ∧ p.2 ≤ e := by
  induction ps generalizing s with
  | nil => intro p hp; cases hp
  | cons q qs ih =>
      obtain ⟨h1, h2, h3⟩ := h
      intro p hp
      rcases List.mem_cons.mp hp with rfl | hmem
      · exact ⟨Nat.le_of_eq h1.symm, h2, rangeChain_le h3⟩
      · obtain ⟨ha, hb, hc⟩ := ih h3 p hmem
        exact ⟨Nat.le_trans (h1 ▸ Nat.le_of_lt h2) ha, hb, hc⟩

theorem rangeChain_countP_outside {ps : List (Nat × Nat)} {s e i : Nat}
    (h : rangeChain ps s e) (hout : i < s ∨ e ≤ i) :
    ps.countP (rangeHas i) = 0 := by
  rw [List.countP_eq_zero]
  intro p hp
  obtain ⟨ha, _, hc⟩ := rangeChain_bounds h p hp
  simp only [rangeHas, Bool.and_eq_true, decide_eq_true_eq, not_and]
  intro h1 h2
  rcases hout with hlt | hge
  · exact absurd (Nat.le_trans ha h1) (Nat.not_le_of_lt hlt)
  · exact absurd (Nat.lt_of_lt_of_le h2 hc) (Nat.not_lt_of_le hge)

theorem rangeChain_countP_inside {ps : List (Nat × Nat)} {s e i : Nat}
    (h : rangeChain ps s e) (hs : s ≤ i) (he : i < e) :
    ps.countP (rangeHas i) = 1 := by
  induction ps generalizing s with
  | nil => exact absurd (Nat.lt_of_le_of_lt hs he) (by simp [rangeChain] at h; omega)
  | cons p ps ih =>
      obtain ⟨h1, h2, h3⟩ := h
      by_cases hin : i < p.2
      · have hhead : rangeHas i p = true := by
          simp [rangeHas, h1, hs, hin]
        have htail : ps.countP (rangeHas i) = 0 :=
          rangeChain_countP_outside h3 (Or.inl hin)
        simp [List.countP_cons, hhead, htail]
      · have hhead : rangeHas i p = false := by
          simp [rangeHas]; intro _; omega
        have htail : ps.countP (rangeHas i) = 1 :=
          ih h3 (Nat.le_of_not_lt hin)
        simp [List.countP_cons, hhead, htail]

theorem rangeChain_pairwise {ps : List (Nat × Nat)} {s e : Nat}
    (h : rangeChain ps s e) :
    ps.Pairwise (fun a b => a.2 ≤ b.1) := by
  induction ps generalizing s with
  | nil => exact List.Pairwise.nil
  | cons p ps ih =>
      obtain ⟨_, _, h3⟩ := h
      refine List.Pairwise.cons ?_ (ih h3)
      intro q hq
      exact (rangeChain_bounds h3 q hq).1

/-! ## Lemmas about segmentation -/

theorem buildRuns_head_start {attrs : List Attr} {i : Nat} {r : Run}
    {rs : List Run} (h : buildRuns attrs i = r :: rs) : r.start = i := by
  cases attrs with
  | nil => simp [buildRuns] at h
  | cons a rest =>
      simp only [buildRuns] at h
      cases hrec : buildRuns rest (i + 1) with
      | nil =>
          rw [hrec] at h
          cases h
          rfl
      | cons r0 rs0 =>
          rw [hrec] at h
          by_cases hm : r0.attr = a
          · simp [hm] at h
            obtain ⟨h1, _⟩ := h
            rw [← h1]
          · simp [hm] at h
            obtain ⟨h1, _⟩ := h
            rw [← h1]

theorem buildRuns_chain : ∀ (attrs : List Attr) (i : Nat),
    rangeChain ((buildRuns attrs i).map Run.range) i (i + attrs.length) := by
  intro attrs
  induction attrs with
  | nil => intro i; simp [buildRuns, rangeChain]
  | cons a rest ih =>
      intro i
      have hrec := ih (i + 1)
      simp only [buildRuns, List.length_cons]
      cases hb : buildRuns rest (i + 1) with
      | nil =>
          rw [hb] at hrec
          simp only [List.map_nil, rangeChain] at hrec
          simp only [List.map_cons, List.map_nil, rangeChain, Run.range]
          refine ⟨by trivial, by omega, by omega⟩
      | cons r0 rs0 =>
          rw [hb] at hrec
          simp only [List.map_cons, rangeChain, Run.range] at hrec
          obtain ⟨h1, h2, h3⟩ := hrec
          by_cases hm : r0.attr = a
          · simp only [hm, if_true]
            simp only [List.map_cons, rangeChain, Run.range]
            refine ⟨by trivial, by omega, ?_⟩
            have : i + (rest.length + 1) = i + 1 + rest.length := by omega
            rw [this]
            exact h3
          · simp only [hm, if_false]
            simp only [List.map_cons, rangeChain, Run.range]
            refine ⟨by trivial, by omega, h1, h2, ?_⟩
            have : i + (rest.length + 1) = i + 1 + rest.length := by omega
            rw [this]
            exact h3

theorem buildRuns_attr : ∀ (attrs : List Attr) (i : Nat) (r : Run),
    r ∈ buildRuns attrs i → ∀ j, r.start ≤ j → j < r.stop →
    attrs.get? (j - i) = some r.attr := by
  intro attrs
  induction attrs with
  | nil => intro i r hr; simp [buildRuns] at hr
  | cons a rest ih =>
      intro i r hr j hsj hje
      have hmem_tail : ∀ r' ∈ buildRuns rest (i + 1), i + 1 ≤ r'.start := by
        intro r' hr'
        have hb := rangeChain_bounds (buildRuns_chain rest (i + 1))
          r'.range (List.mem_map_of_mem Run.range hr')
        exact hb.1
      simp only [buildRuns] at hr
      cases hb : buildRuns rest (i + 1) with
      | nil =>
          rw [hb] at hr
          simp at hr
          subst hr
          simp only at hsj hje
          have : j = i := by omega
          subst this
          simp
      | cons r0 rs0 =>
          rw [hb] at hr
          by_cases hm : r0.attr = a
          · simp only [hm, if_true] at hr
            rcases List.mem_cons.mp hr with rfl | hmem
            · simp only at hsj hje
              have hr0s : r0.start = i + 1 := buildRuns_head_start hb
              by_cases hj : j = i
              · subst hj; simp
              · have hge : i + 1 ≤ j := by omega
                have hr0mem : r0 ∈ buildRuns rest (i + 1) := by
                  rw [hb]; exact List.mem_cons_self r0 rs0
                have := ih (i + 1) r0 hr0mem j (by omega) (by simpa using hje)
                rw [hm] at this
                have harith : j - i = (j - (i + 1)) + 1 := by omega
                rw [harith]
                simpa using this
            · have hr' : r ∈ buildRuns rest (i + 1) := by
                rw [hb]; exact List.mem_cons_of_mem r0 hmem
              have hge : i + 1 ≤ r.start := hmem_tail r hr'
              have := ih (i + 1) r hr' j hsj hje
              have harith : j - i = (j - (i + 1)) + 1 := by omega
              rw [harith]
              simpa using this
          · simp only [hm, if_false] at hr
            rcases List.mem_cons.mp hr with rfl | hmem
            · simp only at hsj hje
              have : j = i := by omega
              subst this
              simp
            · have hr'' : r ∈ buildRuns rest (i + 1) := by
                rw [hb]; exact hmem
              have hge : i + 1 ≤ r.start := hmem_tail r hr''
              have := ih (i + 1) r hr'' j hsj hje
              have harith : j - i = (j - (i + 1)) + 1 := by omega
              rw [harith]
              simpa using this

/-! ## Lemmas about script resolution and attribute zipping -/

theorem zipAttrs_length_eq : ∀ (ss : List Script) (ls : List Nat)
    (sts : List Style), ss.length = ls.length → ls.length = sts.length →
    (zipAttrs ss ls sts).length = ss.length := by
  intro ss
  induction ss with
  | nil =>
      intro ls sts h1 h2
      cases ls with
      | nil => simp [zipAttrs]
      | cons _ _ => simp at h1
  | cons s ss ih =>
      intro ls sts h1 h2
      cases ls with
      | nil => simp at h1
      | cons l ls =>
          cases sts with
          | nil => simp at h2
          | cons st sts =>
              simp only [List.length_cons] at h1 h2
              simp only [zipAttrs, List.length_cons]
              rw [ih ls sts (by omega) (by omega)]

theorem zipAttrs_get?_script : ∀ (ss : List Script) (ls : List Nat)
    (sts : List Style) (j : Nat) (a : Attr),
    (zipAttrs ss ls sts).get? j = some a → ss.get? j = some a.script := by
  intro ss
  induction ss with
  | nil => intro ls sts j a h; simp [zipAttrs] at h
  | cons s ss ih =>
      intro ls sts j a h
      cases ls with
      | nil => simp [zipAttrs] at h
      | cons l ls =>
          cases sts with
          | nil => simp [zipAttrs] at h
          | cons st sts =>
              cases j with
              | zero =>
                  simp only [zipAttrs, List.get?_cons_zero, Option.some_inj] at h ⊢
                  rw [← h]
              | succ j =>
                  simp only [zipAttrs, List.get?_cons_succ] at h ⊢
                  exact ih ls sts j a h

theorem resolveFrom_length : ∀ (p : Script) (ss : List Script),
    (resolveFrom p ss).length = ss.length
  | _, [] => rfl
  | p, s :: rest => by
      simp only [resolveFrom]
      by_cases h : s.isNeutral = true <;>
        simp [h, resolveFrom_length _ rest]

theorem resolveScripts_length (raw : List Script) :
    (resolveScripts raw).length = raw.length := by
  unfold resolveScripts
  cases firstConcrete raw with
  | none => simp
  | some s0 => simp [resolveFrom_length]

theorem resolveFrom_succ : ∀ (ss : List Script) (p : Script) (i : Nat)
    (s' : Script), ss.get? (i + 1) = some s' → s'.isNeutral = true →
    (resolveFrom p ss).get? (i + 1) = (resolveFrom p ss).get? i := by
  intro ss
  induction ss with
  | nil => intro p i s' h; simp at h
  | cons s rest ih =>
      intro p i s' hget hneu
      simp only [List.get?_cons_succ] at hget
      cases i with
      | zero =>
          cases rest with
          | nil => simp at hget
          | cons t more =>
              simp only [List.get?_cons_zero, Option.some_inj] at hget
              subst hget
              by_cases hs : s.isNeutral = true
              · simp [resolveFrom, hs, hneu]
              · simp [resolveFrom, hs, hneu]
      | succ i =>
          by_cases hs : s.isNeutral = true
          · simp only [resolveFrom, hs, if_true, List.get?_cons_succ]
            exact ih p i s' hget hneu
          · simp only [resolveFrom, hs, if_false, List.get?_cons_succ]
            exact ih s i s' hget hneu

theorem resolveScripts_succ (raw : List Script) (i : Nat) (s' : Script)
    (hget : raw.get? (i + 1) = some s') (hneu : s'.isNeutral = true) :
    (resolveScripts raw).get? (i + 1) = (resolveScripts raw).get? i := by
  unfold resolveScripts
  cases firstConcrete raw with
  | none =>
      have hlt : i + 1 < raw.length := by
        by_contra hge
        rw [List.get?_eq_none.mpr (by omega)] at hget
        exact Option.noConfusion hget
      have h1 : (raw.map fun _ => Script.common).get? (i + 1) =
          some Script.common := by
        rw [List.get?_map, hget]
        simp
      have h2 : (raw.map fun _ => Script.common).get? i =
          some Script.common := by
        rw [List.get?_map, List.get?_eq_get (by omega : i < raw.length)]
        simp
      rw [h1, h2]
  | some s0 => exact resolveFrom_succ raw s0 i s' hget hneu

theorem resolveFrom_head (s : Script) (rest : List Script) (p : Script)
    (hneu : s.isNeutral = true) :
    (resolveFrom p (s :: rest)).get? 0 = some p := by
  simp [resolveFrom, hneu]

theorem resolveScripts_head (s s0 : Script) (rest : List Script)
    (hneu : s.isNeutral = true)
    (hfc : firstConcrete (s :: rest) = some s0) :
    (resolveScripts (s :: rest)).get? 0 = some s0 := by
  unfold resolveScripts
  rw [hfc]
  exact resolveFrom_head s rest s0 hneu

/-! ## Lemmas about shaping -/

theorem simpleShape_chain (f : Font) : ∀ (cps : List Nat) (i : Nat),
    rangeChain ((simpleShape f i cps).map GlyphCluster.range) i
      (i + cps.length) := by
  intro cps
  induction cps with
  | nil => intro i; simp [simpleShape, rangeChain]
  | cons cp rest ih =>
      intro i
      simp only [simpleShape, List.map_cons, rangeChain, GlyphCluster.range,
        List.length_cons]
      refine ⟨by trivial, by omega, ?_⟩
      have := ih (i + 1)
      have harith : i + (rest.length + 1) = i + 1 + rest.length := by omega
      rw [harith]
      exact this

theorem complexShape_chain (f : Font) : ∀ (cps : List Nat) (i : Nat),
    rangeChain ((complexShape f i cps).map GlyphCluster.range) i
      (i + cps.length)
  | [], i => by simp [complexShape, rangeChain]
  | [cp], i => by
      simp only [complexShape, List.map_cons, List.map_nil, rangeChain,
        GlyphCluster.range, List.length_cons, List.length_nil]
      exact ⟨by trivial, by omega, by first | trivial | omega⟩
  | cp1 :: cp2 :: rest, i => by
      simp only [complexShape]
      cases hl : ligaFor f cp1 cp2 with
      | some g =>
          simp only [List.map_cons, rangeChain, GlyphCluster.range,
            List.length_cons]
          refine ⟨by trivial, by omega, ?_⟩
          have := complexShape_chain f rest (i + 2)
          have harith : i + (rest.length + 1 + 1) = i + 2 + rest.length := by
            omega
          rw [harith]
          exact this
      | none =>
          simp only [List.map_cons, rangeChain, GlyphCluster.range,
            List.length_cons]
          refine ⟨by trivial, by omega, ?_⟩
          have := complexShape_chain f (cp2 :: rest) (i + 1)
          simp only [List.length_cons] at this
          have harith : i + (rest.length + 1 + 1) = i + 1 + (rest.length + 1) := by
            omega
          rw [harith]
          exact this
termination_by cps _ => cps.length

theorem sliceRun_length {cps : List Nat} {r : Run}
    (hstop : r.stop ≤ cps.length) :
    (sliceRun cps r).length = r.stop - r.start := by
  simp only [sliceRun, List.length_take, List.length_drop]
  omega

theorem shapeRun_chain {env : ShapingEnv} {cps : List Nat} {r : Run}
    {cs : List GlyphCluster} (hok : shapeRun env cps r = .ok cs)
    (hse : r.start ≤ r.stop) (hstop : r.stop ≤ cps.length) :
    rangeChain (cs.map GlyphCluster.range) r.start r.stop := by
  unfold shapeRun at hok
  cases hreg : env.registry r.attr.script with
  | none => rw [hreg] at hok; exact Except.noConfusion hok
  | some k =>
      rw [hreg] at hok
      cases k with
      | simple =>
          simp only [Except.ok.injEq] at hok
          subst hok
          have := simpleShape_chain (env.getFont r.attr.style.font)
            (sliceRun cps r) r.start
          rw [sliceRun_length hstop] at this
          have harith : r.start + (r.stop - r.start) = r.stop := by omega
          rw [harith] at this
          exact this
      | complex =>
          simp only [Except.ok.injEq] at hok
          subst hok
          have := complexShape_chain (env.getFont r.attr.style.font)
            (sliceRun cps r) r.start
          rw [sliceRun_length hstop] at this
          have harith : r.start + (r.stop - r.start) = r.stop := by omega
          rw [harith] at this
          exact this

theorem shapeAllRuns_ok {env : ShapingEnv} {cps : List Nat} :
    ∀ {runs : List Run} {shaped : List ShapedRun},
    shapeAllRuns env cps runs = .ok shaped →
    shaped.map ShapedRun.run = runs ∧
      ∀ sr ∈ shaped, shapeRun env cps sr.run = .ok sr.clusters := by
  intro runs
  induction runs with
  | nil =>
      intro shaped h
      simp only [shapeAllRuns, Except.ok.injEq] at h
      subst h
      exact ⟨rfl, by intro sr hsr; cases hsr⟩
  | cons r rest ih =>
      intro shaped h
      simp only [shapeAllRuns] at h
      cases h1 : shapeRun env cps r with
      | error e => rw [h1] at h; exact Except.noConfusion h
      | ok cs =>
          rw [h1] at h
          simp only [Except.bind, Bind.bind] at h
          cases h2 : shapeAllRuns env cps rest with
          | error e => rw [h2] at h; exact Except.noConfusion h
          | ok srs =>
              rw [h2] at h
              simp only [Except.bind, Bind.bind, Except.ok.injEq] at h
              subst h
              obtain ⟨hmap, hall⟩ := ih h2
              refine ⟨by simp [hmap], ?_⟩
              intro sr hsr
              rcases List.mem_cons.mp hsr with rfl | hmem
              · exact h1
              · exact hall sr hmem

theorem clusters_chain_of_runs_chain :
    ∀ (shaped : List ShapedRun) (s e : Nat),
    rangeChain ((shaped.map fun sr => sr.run.range) ) s e →
    (∀ sr ∈ shaped,
      rangeChain (sr.clusters.map GlyphCluster.range) sr.run.start sr.run.stop) →
    rangeChain (((shaped.map ShapedRun.clusters).flatten).map
      GlyphCluster.range) s e := by
  intro shaped
  induction shaped with
  | nil => intro s e h _; simpa using h
  | cons sr rest ih =>
      intro s e h hall
      simp only [List.map_cons, rangeChain, Run.range] at h
      obtain ⟨h1, _, h3⟩ := h
      simp only [List.map_cons, List.flatten_cons, List.map_append]
      have hhead := hall sr (List.mem_cons_self sr rest)
      rw [h1] at hhead
      exact rangeChain_append hhead
        (ih sr.run.stop e h3 fun sr' hsr' => hall sr' (List.mem_cons_of_mem sr hsr'))

theorem simpleShape_get? (f : Font) : ∀ (cps : List Nat) (i j : Nat)
    (hj : j < cps.length),
    (simpleShape f i cps).get? j = some ⟨i + j, i + j + 1,
      [glyphFor f (cps.get ⟨j, hj⟩)], advanceFor f (cps.get ⟨j, hj⟩)⟩ := by
  intro cps
  induction cps with
  | nil => intro i j hj; simp at hj
  | cons cp rest ih =>
      intro i j hj
      cases j with
      | zero => simp [simpleShape]
      | succ j =>
          simp only [simpleShape, List.get?_cons_succ, List.get_cons_succ]
          have h2 := ih (i + 1) j (by simpa using Nat.lt_of_succ_lt_succ hj)
          rw [h2]
          have harith : i + 1 + j = i + (j + 1) := by omega
          rw [harith]

theorem simpleShape_missing_mem (f : Font) : ∀ (cps : List Nat)
    (i j cp : Nat), cps.get? j = some cp → f.cmap cp = none →
    (⟨i + j, i + j + 1, [0], f.fallbackAdvance⟩ : GlyphCluster) ∈
      simpleShape f i cps := by
  intro cps
  induction cps with
  | nil => intro i j cp hget; simp at hget
  | cons cp0 rest ih =>
      intro i j cp hget hmiss
      cases j with
      | zero =>
          simp only [List.get?_cons_zero, Option.some_inj] at hget
          subst hget
          simp [simpleShape, glyphFor, advanceFor, hmiss]
      | succ j =>
          simp only [List.get?_cons_succ] at hget
          have hrec := ih (i + 1) j cp hget hmiss
          simp only [simpleShape]
          refine List.mem_cons_of_mem _ ?_
          have harith : i + (j + 1) = i + 1 + j := by omega
          rw [harith]
          exact hrec

theorem ligaFor_some_mapped {f : Font} {cp1 cp2 g : Nat}
    (hl : ligaFor f cp1 cp2 = some g) :
    ∃ g1 g2, f.cmap cp1 = some g1 ∧ f.cmap cp2 = some g2 := by
  unfold ligaFor at hl
  cases hc1 : f.cmap cp1 with
  | none => rw [hc1] at hl; exact Option.noConfusion hl
  | some g1 =>
      cases hc2 : f.cmap cp2 with
      | none => rw [hc1, hc2] at hl; exact Option.noConfusion hl
      | some g2 => exact ⟨g1, g2, rfl, rfl⟩

theorem complexShape_missing_mem (f : Font) : ∀ (cps : List Nat)
    (i j cp : Nat), cps.get? j = some cp → f.cmap cp = none →
    (⟨i + j, i + j + 1, [0], f.fallbackAdvance⟩ : GlyphCluster) ∈
      complexShape f i cps
  | [], _, j, cp, hget, _ => by simp at hget
  | [cp0], i, j, cp, hget, hmiss => by
      cases j with
      | zero =>
          simp only [List.get?_cons_zero, Option.some_inj] at hget
          subst hget
          simp [complexShape, glyphFor, advanceFor, hmiss]
      | succ j => simp at hget
  | cp1 :: cp2 :: rest, i, j, cp, hget, hmiss => by
      cases hl : ligaFor f cp1 cp2 with
      | some g =>
          obtain ⟨g1, g2, hc1, hc2⟩ := ligaFor_some_mapped hl
          cases j with
          | zero =>
              simp only [List.get?_cons_zero, Option.some_inj] at hget
              subst hget
              rw [hmiss] at hc1
              exact Option.noConfusion hc1
          | succ j =>
              cases j with
              | zero =>
                  simp only [List.get?_cons_succ, List.get?_cons_zero,
                    Option.some_inj] at hget
                  subst hget
                  rw [hmiss] at hc2
                  exact Option.noConfusion hc2
              | succ j =>
                  simp only [List.get?_cons_succ] at hget
                  have hrec := complexShape_missing_mem f rest (i + 2) j cp
                    hget hmiss
                  simp only [complexShape, hl]
                  refine List.mem_cons_of_mem _ ?_
                  have harith : i + (j + 1 + 1) = i + 2 + j := by omega
                  rw [harith]
                  exact hrec
      | none =>
          cases j with
          | zero =>
              simp only [List.get?_cons_zero, Option.some_inj] at hget
              subst hget
              simp [complexShape, hl, glyphFor, advanceFor, hmiss]
          | succ j =>
              simp only [List.get?_cons_succ] at hget
              have hrec := complexShape_missing_mem f (cp2 :: rest) (i + 1) j cp
                hget hmiss
              simp only [complexShape, hl]
              refine List.mem_cons_of_mem _ ?_
              have harith : i + (j + 1) = i + 1 + j := by omega
              rw [harith]
              exact hrec
termination_by cps _ _ _ _ _ => cps.length

/-! ## Lemmas about line composition -/

theorem breakKindAt_nil (i : Nat) : breakKindAt [] i = .prohibited := rfl

theorem takeLineAux_flatten (breaks : List BreakOpportunity)
    (maxWidth : Option Nat) : ∀ (rs : List ShapedRun) (w : Nat),
    (takeLineAux breaks maxWidth w rs).1 ++ (takeLineAux breaks maxWidth w rs).2
      = rs := by
  intro rs
  induction rs with
  | nil => intro w; simp [takeLineAux]
  | cons r rest ih =>
      intro w
      simp only [takeLineAux]
      cases hk : breakKindAt breaks r.run.start with
      | mandatory => simp
      | prohibited => simpa using ih (w + r.width)
      | optional =>
          by_cases hf : fitsWidth maxWidth (w + r.width) = true
          · simpa [hf] using ih (w + r.width)
          · simp [hf]

theorem takeLineAux_rest_le (breaks : List BreakOpportunity)
    (maxWidth : Option Nat) : ∀ (rs : List ShapedRun) (w : Nat),
    (takeLineAux breaks maxWidth w rs).2.length ≤ rs.length := by
  intro rs
  induction rs with
  | nil => intro w; simp [takeLineAux]
  | cons r rest ih =>
      intro w
      simp only [takeLineAux]
      cases hk : breakKindAt breaks r.run.start with
      | mandatory => simp
      | prohibited => exact Nat.le_succ_of_le (ih (w + r.width))
      | optional =>
          by_cases hf : fitsWidth maxWidth (w + r.width) = true
          · simpa [hf] using Nat.le_succ_of_le (ih (w + r.width))
          · simp [hf]

theorem takeLineAux_ok (breaks : List BreakOpportunity)
    (maxWidth : Option Nat) : ∀ (rs : List ShapedRun) (w : Nat),
    okFrom breaks maxWidth w (takeLineAux breaks maxWidth w rs).1 = true := by
  intro rs
  induction rs with
  | nil => intro w; simp [takeLineAux, okFrom]
  | cons r rest ih =>
      intro w
      simp only [takeLineAux]
      cases hk : breakKindAt breaks r.run.start with
      | mandatory => simp [okFrom]
      | prohibited =>
          simp only [okFrom, hk]
          simp [ih (w + r.width)]
      | optional =>
          by_cases hf : fitsWidth maxWidth (w + r.width) = true
          · simp only [hf, if_true]
            simp only [okFrom, hk]
            simp [hf, ih (w + r.width)]
          · simp [hf, okFrom]

theorem composeFromFuel_nil (breaks : List BreakOpportunity)
    (maxWidth : Option Nat) : ∀ (fuel : Nat),
    composeFromFuel breaks maxWidth fuel [] = []
  | 0 => rfl
  | _ + 1 => rfl

theorem composeFromFuel_flatten (breaks : List BreakOpportunity)
    (maxWidth : Option Nat) : ∀ (fuel : Nat) (rs : List ShapedRun),
    rs.length ≤ fuel →
    ((composeFromFuel breaks maxWidth fuel rs).map Line.runs).flatten = rs := by
  intro fuel
  induction fuel with
  | zero =>
      intro rs h
      rw [List.length_eq_zero.mp (Nat.le_zero.mp h)]
      rfl
  | succ fuel ih =>
      intro rs h
      cases rs with
      | nil => rfl
      | cons r rest =>
          simp only [composeFromFuel, List.map_cons, List.flatten_cons]
          have hlen : (takeLineAux breaks maxWidth r.width rest).2.length ≤ fuel :=
            Nat.le_trans (takeLineAux_rest_le breaks maxWidth rest r.width)
              (by simpa using Nat.le_of_succ_le_succ h)
          rw [ih _ hlen]
          simpa using takeLineAux_flatten breaks maxWidth rest r.width

theorem composeFrom_flatten (breaks : List BreakOpportunity)
    (maxWidth : Option Nat) (rs : List ShapedRun) :
    ((composeFrom breaks maxWidth rs).map Line.runs).flatten = rs :=
  composeFromFuel_flatten breaks maxWidth rs.length rs (Nat.le_refl _)

theorem composeFromFuel_lines (breaks : List BreakOpportunity)
    (maxWidth : Option Nat) : ∀ (fuel : Nat) (rs : List ShapedRun),
    ∀ l ∈ composeFromFuel breaks maxWidth fuel rs, ∃ r tl, l.runs = r :: tl ∧
      okFrom breaks maxWidth r.width tl = true := by
  intro fuel
  induction fuel with
  | zero => intro rs l hl; simp [composeFromFuel] at hl
  | succ fuel ih =>
      intro rs l hl
      cases rs with
      | nil => simp [composeFromFuel] at hl
      | cons r rest =>
          simp only [composeFromFuel, List.mem_cons] at hl
          rcases hl with rfl | hmem
          · exact ⟨r, (takeLineAux breaks maxWidth r.width rest).1, rfl,
              takeLineAux_ok breaks maxWidth rest r.width⟩
          · exact ih _ l hmem

theorem composeFrom_lines (breaks : List BreakOpportunity)
    (maxWidth : Option Nat) (rs : List ShapedRun) :
    ∀ l ∈ composeFrom breaks maxWidth rs, ∃ r tl, l.runs = r :: tl ∧
      okFrom breaks maxWidth r.width tl = true :=
  composeFromFuel_lines breaks maxWidth rs.length rs

theorem okFrom_no_mandatory {breaks : List BreakOpportunity}
    {maxWidth : Option Nat} : ∀ {rs : List ShapedRun} {w : Nat},
    okFrom breaks maxWidth w rs = true →
    ∀ r ∈ rs, breakKindAt breaks r.run.start ≠ .mandatory := by
  intro rs
  induction rs with
  | nil => intro w _ r hr; cases hr
  | cons r0 rest ih =>
      intro w h r hr
      simp only [okFrom, Bool.and_eq_true, decide_eq_true_eq] at h
      obtain ⟨⟨h1, _⟩, h3⟩ := h
      rcases List.mem_cons.mp hr with rfl | hmem
      · exact h1
      · exact ih h3 r hmem

theorem okFrom_last_fits {breaks : List BreakOpportunity}
    {maxWidth : Option Nat} : ∀ {rs : List ShapedRun} {w : Nat},
    okFrom breaks maxWidth w rs = true → rs ≠ [] →
    (∀ r ∈ rs, breakKindAt breaks r.run.start ≠ .prohibited) →
    fitsWidth maxWidth (w + sumWidths rs) = true := by
  intro rs
  induction rs with
  | nil => intro w _ hne; exact absurd rfl hne
  | cons r0 rest ih =>
      intro w h _ hnp
      simp only [okFrom, Bool.and_eq_true, decide_eq_true_eq,
        Bool.or_eq_true] at h
      obtain ⟨⟨_, h2⟩, h3⟩ := h
      have hfit : fitsWidth maxWidth (w + r0.width) = true := by
        rcases h2 with hp | hf
        · exact absurd hp (hnp r0 (List.mem_cons_self r0 rest))
        · exact hf
      cases rest with
      | nil =>
          simpa [sumWidths] using hfit
      | cons r1 more =>
          have := ih h3 (by simp)
            (fun r hr => hnp r (List.mem_cons_of_mem r0 hr))
          simp only [sumWidths, List.map_cons, List.sum_cons] at this ⊢
          have harith : w + (r0.width + (r1.width + (more.map ShapedRun.width).sum))
              = w + r0.width + (r1.width + (more.map ShapedRun.width).sum) := by
            omega
          rw [harith]
          exact this

/-! ## Lemmas about visual reordering -/

theorem revSpansAux_perm (p : ShapedRun → Bool) :
    ∀ (rs acc : List ShapedRun), (revSpansAux p rs acc).Perm (acc ++ rs) := by
  intro rs
  induction rs with
  | nil => intro acc; simp [revSpansAux]
  | cons r rest ih =>
      intro acc
      simp only [revSpansAux]
      by_cases hp : p r = true
      · simp only [hp, if_true]
        refine (ih (r :: acc)).trans ?_
        have : (r :: acc) ++ rest = r :: (acc ++ rest) := by simp
        rw [this]
        exact (List.perm_middle).symm
      · simp only [hp, if_false]
        refine (List.Perm.append_left acc ((ih []).cons r)).trans ?_
        simp

theorem reverseSpans_perm (p : ShapedRun → Bool) (rs : List ShapedRun) :
    (reverseSpans p rs).Perm rs := by
  simpa using revSpansAux_perm p rs []

theorem applyLevels_perm : ∀ (n : Nat) (rs : List ShapedRun),
    (applyLevels n rs).Perm rs
  | 0, rs => by simp [applyLevels]
  | n + 1, rs => by
      simp only [applyLevels]
      exact (applyLevels_perm n _).trans (reverseSpans_perm _ rs)

theorem reorderVisual_perm (rs : List ShapedRun) :
    (reorderVisual rs).Perm rs :=
  applyLevels_perm (maxLevel rs) rs

theorem maxLevel_zero {rs : List ShapedRun}
    (h : ∀ sr ∈ rs, sr.run.attr.level = 0) : maxLevel rs = 0 := by
  induction rs with
  | nil => rfl
  | cons r rest ih =>
      simp only [maxLevel, List.map_cons, List.foldr_cons]
      rw [h r (List.mem_cons_self r rest)]
      have := ih fun sr hsr => h sr (List.mem_cons_of_mem r hsr)
      simp only [maxLevel] at this
      rw [this]
      rfl

theorem reorderVisual_id {rs : List ShapedRun}
    (h : ∀ sr ∈ rs, sr.run.attr.level = 0) : reorderVisual rs = rs := by
  unfold reorderVisual
  rw [maxLevel_zero h]
  rfl

/-! ## Lemmas about widths and sums -/

theorem sumWidths_append (xs ys : List ShapedRun) :
    sumWidths (xs ++ ys) = sumWidths xs + sumWidths ys := by
  simp [sumWidths]

theorem sumWidths_flatten : ∀ (L : List (List ShapedRun)),
    sumWidths L.flatten = (L.map sumWidths).sum
  | [] => rfl
  | xs :: rest => by
      simp only [List.flatten_cons, sumWidths_append, List.map_cons,
        List.sum_cons, sumWidths_flatten rest]

theorem sumWidths_perm {xs ys : List ShapedRun} (h : xs.Perm ys) :
    sumWidths xs = sumWidths ys :=
  (h.map ShapedRun.width).sum_eq

theorem sumWidths_eq_totalClusterAdvance : ∀ (shaped : List ShapedRun),
    sumWidths shaped = totalClusterAdvance shaped
  | [] => rfl
  | sr :: rest => by
      simp only [sumWidths, totalClusterAdvance, List.map_cons, List.sum_cons,
        List.flatten_cons, List.map_append, List.sum_append] at *
      have := sumWidths_eq_totalClusterAdvance rest
      simp only [sumWidths, totalClusterAdvance] at this
      rw [this]
      rfl

/-! ## Elimination lemmas for the pipeline stages -/

theorem segment_ok_elim {env : ShapingEnv} {buffer : TextBuffer}
    {runs : List Run} (hok : segment env buffer = .ok runs) :
    buffer.codepoints.all validCodepoint = true ∧
    runs = buildRuns (zipAttrs
      (resolveScripts (buffer.codepoints.map env.tables.scriptOf))
      (env.bidi buffer.codepoints) buffer.styles) 0 := by
  unfold segment at hok
  by_cases h : buffer.codepoints.all validCodepoint = true
  · rw [if_pos h] at hok
    simp only [Except.ok.injEq] at hok
    exact ⟨h, hok.symm⟩
  · rw [if_neg h] at hok
    exact Except.noConfusion hok

theorem segment_attrs_length {env : ShapingEnv} {buffer : TextBuffer}
    (hsty : buffer.styles.length = buffer.codepoints.length)
    (hbidi : (env.bidi buffer.codepoints).length = buffer.codepoints.length) :
    (zipAttrs (resolveScripts (buffer.codepoints.map env.tables.scriptOf))
      (env.bidi buffer.codepoints) buffer.styles).length =
      buffer.codepoints.length := by
  rw [zipAttrs_length_eq]
  · rw [resolveScripts_length, List.length_map]
  · rw [resolveScripts_length, List.length_map, hbidi]
  · rw [hbidi, hsty]

theorem segment_chain {env : ShapingEnv} {buffer : TextBuffer}
    {runs : List Run}
    (hsty : buffer.styles.length = buffer.codepoints.length)
    (hbidi : (env.bidi buffer.codepoints).length = buffer.codepoints.length)
    (hok : segment env buffer = .ok runs) :
    rangeChain (runs.map Run.range) 0 buffer.codepoints.length := by
  obtain ⟨_, hruns⟩ := segment_ok_elim hok
  subst hruns
  have := buildRuns_chain (zipAttrs
    (resolveScripts (buffer.codepoints.map env.tables.scriptOf))
    (env.bidi buffer.codepoints) buffer.styles) 0
  rw [segment_attrs_length hsty hbidi] at this
  simpa using this

theorem shapeRun_ok_of_registered {env : ShapingEnv} (cps : List Nat)
    {r : Run} {k : ShaperKind}
    (hreg : env.registry r.attr.script = some k) :
    ∃ cs, shapeRun env cps r = .ok cs := by
  unfold shapeRun
  rw [hreg]
  cases k with
  | simple => exact ⟨_, rfl⟩
  | complex => exact ⟨_, rfl⟩

theorem shapeAllRuns_ok_of_registered {env : ShapingEnv} {cps : List Nat} :
    ∀ {runs : List Run},
    (∀ r ∈ runs, env.registry r.attr.script ≠ none) →
    ∃ shaped, shapeAllRuns env cps runs = .ok shaped := by
  intro runs
  induction runs with
  | nil => intro _; exact ⟨[], rfl⟩
  | cons r rest ih =>
      intro h
      obtain ⟨k, hk⟩ : ∃ k, env.registry r.attr.script = some k := by
        cases hreg : env.registry r.attr.script with
        | none => exact absurd hreg (h r (List.mem_cons_self r rest))
        | some k => exact ⟨k, rfl⟩
      obtain ⟨cs, hcs⟩ := shapeRun_ok_of_registered cps hk
      obtain ⟨srs, hsrs⟩ := ih fun r' hr' => h r' (List.mem_cons_of_mem r hr')
      refine ⟨⟨r, cs⟩ :: srs, ?_⟩
      simp only [shapeAllRuns, hcs, hsrs]
      rfl

theorem takeLineAux_nil_breaks (maxWidth : Option Nat) :
    ∀ (rs : List ShapedRun) (w : Nat),
    takeLineAux [] maxWidth w rs = (rs, []) := by
  intro rs
  induction rs with
  | nil => intro w; rfl
  | cons r rest ih =>
      intro w
      simp only [takeLineAux, breakKindAt_nil]
      rw [ih (w + r.width)]

/-! ## The claims -/

/-- C1: the repository's sole source file is a bridging header consisting
only of comments, blanks and `#include` directives; every include targets
one of the four third-party library families (FreeType, libunibreak's
`linebreak.h`, SheenBidi, SheenFigure), all four families occur, and no
line defines a data structure, control flow or error handling of its own. -/
theorem bridging_header_is_pure_aggregation :
    (bridgingHeader.all fun l => l.isInert || l.isInclude) = true ∧
    (bridgingHeader.all fun l => !l.isOriginalLogic) = true ∧
    (headerIncludes.all fun t =>
      decide (t.family = .freeType) || decide (t.family = .lineBreakLib) ||
      decide (t.family = .sheenBidiLib) || decide (t.family = .sheenFigureLib)) = true ∧
    (headerIncludes.any fun t => decide (t.family = .freeType)) = true ∧
    (headerIncludes.any fun t => decide (t.family = .lineBreakLib)) = true ∧
    (headerIncludes.any fun t => decide (t.family = .sheenBidiLib)) = true ∧
    (headerIncludes.any fun t => decide (t.family = .sheenFigureLib)) = true := by
  decide

/-- C10: `ft2build.h` is included before every `FT_*` macro header, so each
`FT_*_H` macro used in an `#include` line of the bridging header is defined
at the point of its use. -/
theorem ft2build_precedes_all_ft_uses :
    ((List.range headerIncludes.length).all fun i =>
      includeUseResolved headerIncludes i) = true := by
  decide

/-- C3: for every shaped buffer, the sum of all line advance widths equals
the total width obtained independently by summing the advances of all glyph
clusters. -/
theorem line_widths_roundtrip (breaks : List BreakOpportunity)
    (maxWidth : Option Nat) (shaped : List ShapedRun) :
    ((composeLines breaks maxWidth shaped).map Line.width).sum
      = totalClusterAdvance shaped := by
  have h1 : ((composeLines breaks maxWidth shaped).map Line.width).sum
      = sumWidths (((composeLines breaks maxWidth shaped).map Line.runs).flatten) := by
    rw [sumWidths_flatten, List.map_map]
    rfl
  rw [h1]
  unfold composeLines
  rw [composeFrom_flatten]
  rw [sumWidths_perm (reorderVisual_perm shaped)]
  exact sumWidths_eq_totalClusterAdvance shaped

/-- C7: on every valid buffer, `segment` returns runs whose half-open
ranges chain over the whole buffer (no gaps, no overlaps), sorted by start
index, covering each index exactly once; every position of a run carries
the run's resolved script, and script resolution makes each neutral
(`Common`/`Inherited`) position inherit the preceding position's resolved
script, the buffer-initial neutral position inheriting the first concrete
(following-run) script. -/
theorem segment_partition_sorted_inherits
    (env : ShapingEnv) (buffer : TextBuffer) (runs : List Run)
    (hsty : buffer.styles.length = buffer.codepoints.length)
    (hbidi : (env.bidi buffer.codepoints).length = buffer.codepoints.length)
    (hok : segment env buffer = .ok runs) :
    rangeChain (runs.map Run.range) 0 buffer.codepoints.length ∧
    runs.Pairwise (fun a b => a.start < b.start ∧ a.stop ≤ b.start) ∧
    (∀ i, i < buffer.codepoints.length → runs.countP (runHas i) = 1) ∧
    (∀ r ∈ runs, ∀ j, r.start ≤ j → j < r.stop →
      (resolveScripts (buffer.codepoints.map env.tables.scriptOf)).get? j
        = some r.attr.script) ∧
    (∀ i s', (buffer.codepoints.map env.tables.scriptOf).get? (i + 1) = some s' →
      s'.isNeutral = true →
      (resolveScripts (buffer.codepoints.map env.tables.scriptOf)).get? (i + 1)
        = (resolveScripts (buffer.codepoints.map env.tables.scriptOf)).get? i) ∧
    (∀ s s0 rest, buffer.codepoints.map env.tables.scriptOf = s :: rest →
      s.isNeutral = true → firstConcrete (s :: rest) = some s0 →
      (resolveScripts (buffer.codepoints.map env.tables.scriptOf)).get? 0
        = some s0) := by
  have hchain := segment_chain hsty hbidi hok
  obtain ⟨hvalid, hruns⟩ := segment_ok_elim hok
  refine ⟨hchain, ?_, ?_, ?_, ?_, ?_⟩
  · have hpw := rangeChain_pairwise hchain
    rw [List.pairwise_map] at hpw
    refine hpw.imp_of_mem ?_
    intro a b ha hb hab
    have hbnd := rangeChain_bounds hchain a.range
      (List.mem_map_of_mem Run.range ha)
    exact ⟨Nat.lt_of_lt_of_le hbnd.2.1 hab, hab⟩
  · intro i hi
    have := rangeChain_countP_inside hchain (Nat.zero_le i) hi
    rw [List.countP_map] at this
    exact this
  · intro r hr j hsj hje
    have hattr : (zipAttrs
        (resolveScripts (buffer.codepoints.map env.tables.scriptOf))
        (env.bidi buffer.codepoints) buffer.styles).get? j = some r.attr := by
      have := buildRuns_attr _ 0 r (hruns ▸ hr) j hsj hje
      simpa using this
    exact zipAttrs_get?_script _ _ _ j r.attr hattr
  · intro i s' hget hneu
    exact resolveScripts_succ _ i s' hget hneu
  · intro s s0 rest hraw hneu hfc
    rw [hraw]
    exact resolveScripts_head s s0 rest hneu hfc

/-- Witness for C7 at the sample buffer: the hypotheses hold and, applying
the theorem, index 1 of the buffer is covered by exactly one run. -/
theorem segment_partition_sorted_inherits_witness :
    sampleBuffer.styles.length = sampleBuffer.codepoints.length ∧
    (sampleEnv.bidi sampleBuffer.codepoints).length
      = sampleBuffer.codepoints.length ∧
    segment sampleEnv sampleBuffer = .ok sampleRuns ∧
    sampleRuns.countP (runHas 1) = 1 :=
  ⟨by decide, by decide, by rfl,
    (segment_partition_sorted_inherits sampleEnv sampleBuffer sampleRuns
      (by decide) (by decide) (by rfl)).2.2.1 1 (by decide)⟩

/-- C2: when the pipeline processes a buffer to completion, every input
codepoint index is covered by exactly one glyph cluster of the final output
(no gaps, no overlaps, no silent loss); failures surface as an explicit
`ShapingError` instead. -/
theorem pipeline_no_silent_loss
    (env : ShapingEnv) (buffer : TextBuffer) (maxWidth : Option Nat)
    (lines : List Line)
    (hsty : buffer.styles.length = buffer.codepoints.length)
    (hbidi : (env.bidi buffer.codepoints).length = buffer.codepoints.length)
    (hok : processBuffer env buffer maxWidth = .ok lines) :
    ∀ i, i < buffer.codepoints.length →
      (lineClusters lines).countP (clusterHas i) = 1 := by
  intro i hi
  unfold processBuffer at hok
  cases hseg : segment env buffer with
  | error e => rw [hseg] at hok; exact Except.noConfusion hok
  | ok runs =>
      rw [hseg] at hok
      simp only [Except.bind, Bind.bind] at hok
      cases hsh : shapeAllRuns env buffer.codepoints runs with
      | error e => rw [hsh] at hok; exact Except.noConfusion hok
      | ok shaped =>
          rw [hsh] at hok
          simp only [Except.ok.injEq] at hok
          subst hok
          obtain ⟨hmap, hall⟩ := shapeAllRuns_ok hsh
          have hchain := segment_chain hsty hbidi hseg
          have hchain' : rangeChain ((shaped.map fun sr => sr.run.range)) 0
              buffer.codepoints.length := by
            have : shaped.map (fun sr => sr.run.range)
                = (shaped.map ShapedRun.run).map Run.range := by
              rw [List.map_map]
              rfl
            rw [this, hmap]
            exact hchain
          have hclusters : ∀ sr ∈ shaped,
              rangeChain (sr.clusters.map GlyphCluster.range)
                sr.run.start sr.run.stop := by
            intro sr hsr
            have hmem : sr.run.range ∈ shaped.map fun sr => sr.run.range :=
              List.mem_map_of_mem _ hsr
            obtain ⟨_, hlt, hle⟩ := rangeChain_bounds hchain' sr.run.range hmem
            exact shapeRun_chain (hall sr hsr) (Nat.le_of_lt hlt) hle
          have hlogical := clusters_chain_of_runs_chain shaped 0
            buffer.codepoints.length hchain' hclusters
          have hcount := rangeChain_countP_inside hlogical (Nat.zero_le i) hi
          rw [List.countP_map] at hcount
          have hperm : (lineClusters (composeLines
              (findBreaks env.tables buffer) maxWidth shaped)).Perm
              ((shaped.map ShapedRun.clusters).flatten) := by
            unfold lineClusters composeLines
            rw [composeFrom_flatten]
            exact ((reorderVisual_perm shaped).map ShapedRun.clusters).flatten
          rw [hperm.countP_eq]
          exact hcount

/-- Witness for C2 at the sample buffer: the pipeline succeeds and,
applying the theorem, buffer index 2 lies in exactly one output cluster. -/
theorem pipeline_no_silent_loss_witness :
    processBuffer sampleEnv sampleBuffer none = .ok sampleLines ∧
    (lineClusters sampleLines).countP (clusterHas 2) = 1 :=
  ⟨by rfl,
    pipeline_no_silent_loss sampleEnv sampleBuffer none sampleLines
      (by decide) (by decide) (by rfl) 2 (by decide)⟩

/-- C4: `segment` fails with `InvalidEncoding` exactly when the buffer
contains an invalid codepoint value, and such a failure aborts the whole
request with no partial output; a shaping failure is `UnsupportedScript`
exactly when the run's resolved script has no registered shaper variant,
and is scoped to the offending run: substituting a registered script on
that run alone lets every run shape. -/
theorem encoding_fatal_shaping_scoped
    (env : ShapingEnv) (buffer : TextBuffer) (maxWidth : Option Nat) :
    (segment env buffer = .error .invalidEncoding ↔
      ∃ cp ∈ buffer.codepoints, validCodepoint cp = false) ∧
    ((∃ cp ∈ buffer.codepoints, validCodepoint cp = false) →
      processBuffer env buffer maxWidth = .error .invalidEncoding) ∧
    (∀ (cps : List Nat) (r : Run),
      shapeRun env cps r = .error .unsupportedScript ↔
        env.registry r.attr.script = none) ∧
    (∀ (cps : List Nat) (pre post : List Run) (r : Run) (s : Script)
      (k : ShaperKind), env.registry s = some k →
      (∀ r' ∈ pre ++ post, env.registry r'.attr.script ≠ none) →
      ∃ shaped, shapeAllRuns env cps (pre ++ retag r s :: post) = .ok shaped) := by
  have hall_iff : (buffer.codepoints.all validCodepoint = true) ↔
      ¬ ∃ cp ∈ buffer.codepoints, validCodepoint cp = false := by
    rw [List.all_eq_true]
    constructor
    · rintro h ⟨cp, hmem, hfalse⟩
      rw [h cp hmem] at hfalse
      exact Bool.noConfusion hfalse
    · intro h cp hmem
      by_contra hne
      exact h ⟨cp, hmem, Bool.eq_false_iff.mpr hne⟩
  refine ⟨?_, ?_, ?_, ?_⟩
  · constructor
    · intro herr
      by_contra hno
      have hvalid : buffer.codepoints.all validCodepoint = true :=
        hall_iff.mpr hno
      unfold segment at herr
      rw [if_pos hvalid] at herr
      exact Except.noConfusion herr
    · intro hex
      have hvalid : ¬ buffer.codepoints.all validCodepoint = true := by
        intro h
        exact hall_iff.mp h hex
      unfold segment
      rw [if_neg hvalid]
  · intro hex
    have hvalid : ¬ buffer.codepoints.all validCodepoint = true := by
      intro h
      exact hall_iff.mp h hex
    unfold processBuffer segment
    rw [if_neg hvalid]
    rfl
  · intro cps r
    unfold shapeRun
    cases hreg : env.registry r.attr.script with
    | none => simp
    | some k =>
        cases k with
        | simple => simp
        | complex => simp
  · intro cps pre post r s k hk hrest
    refine shapeAllRuns_ok_of_registered ?_
    intro r' hr'
    rcases List.mem_append.mp hr' with hpre | hmid
    · exact hrest r' (List.mem_append.mpr (Or.inl hpre))
    · rcases List.mem_cons.mp hmid with rfl | hpost
      · simp only [retag]
        rw [hk]
        exact fun h => Option.noConfusion h
      · exact hrest r' (List.mem_append.mpr (Or.inr hpost))

/-- Witness for C4: a surrogate buffer aborts the whole request with
`InvalidEncoding`, an unregistered-script run fails with
`UnsupportedScript`, and retagging that run with a registered script lets
the run list shape. -/
theorem encoding_fatal_shaping_scoped_witness :
    processBuffer sampleEnv invalidBuffer none = .error .invalidEncoding ∧
    shapeRun sampleEnv [2] devRun = .error .unsupportedScript ∧
    ∃ shaped, shapeAllRuns sampleEnv [2] ([] ++ retag devRun Script.latin :: [])
      = .ok shaped := by
  have h := encoding_fatal_shaping_scoped sampleEnv invalidBuffer none
  refine ⟨h.2.1 ⟨0xD800, by decide, by decide⟩, ?_, ?_⟩
  · exact (h.2.2.1 [2] devRun).mpr (by rfl)
  · exact h.2.2.2 [2] [] [] devRun Script.latin ShaperKind.simple (by rfl)
      (by intro r' hr'; simp at hr')

/-- C5: for every run whose script has a registered shaper variant — simple
or complex alike — shaping never raises an error, whatever the font's glyph
coverage; and a codepoint with no glyph mapping in the active font yields a
cluster over exactly that codepoint whose glyph id is the missing-glyph
placeholder 0 with the font's defined fallback advance. -/
theorem missing_glyph_placeholder
    (env : ShapingEnv) (cps : List Nat) (r : Run) (j cp : Nat)
    (k : ShaperKind)
    (hreg : env.registry r.attr.script = some k)
    (hget : (sliceRun cps r).get? j = some cp)
    (hmiss : (env.getFont r.attr.style.font).cmap cp = none) :
    (∀ (r' : Run) (k' : ShaperKind), env.registry r'.attr.script = some k' →
      ∃ cs, shapeRun env cps r' = .ok cs) ∧
    ∃ cs, shapeRun env cps r = .ok cs ∧
      (⟨r.start + j, r.start + j + 1, [0],
        (env.getFont r.attr.style.font).fallbackAdvance⟩ : GlyphCluster) ∈ cs := by
  refine ⟨fun r' k' hk => shapeRun_ok_of_registered cps hk, ?_⟩
  cases k with
  | simple =>
      refine ⟨simpleShape (env.getFont r.attr.style.font) r.start
        (sliceRun cps r), ?_, ?_⟩
      · unfold shapeRun
        rw [hreg]
      · exact simpleShape_missing_mem (env.getFont r.attr.style.font)
          (sliceRun cps r) r.start j cp hget hmiss
  | complex =>
      refine ⟨complexShape (env.getFont r.attr.style.font) r.start
        (sliceRun cps r), ?_, ?_⟩
      · unfold shapeRun
        rw [hreg]
      · exact complexShape_missing_mem (env.getFont r.attr.style.font)
          (sliceRun cps r) r.start j cp hget hmiss

/-- Witness for C5: shaping the single unmapped codepoint 7 succeeds under
the simple shaper (Latin run) and under the complex shaper (Arabic run),
each emitting a cluster with glyph id 0 and the fallback advance 11. -/
theorem missing_glyph_placeholder_witness :
    sampleEnv.registry missingRun.attr.script = some ShaperKind.simple ∧
    sampleEnv.registry missingArabicRun.attr.script = some ShaperKind.complex ∧
    (∃ cs, shapeRun sampleEnv [7] missingRun = .ok cs ∧
      (⟨missingRun.start + 0, missingRun.start + 0 + 1, [0],
        (sampleEnv.getFont missingRun.attr.style.font).fallbackAdvance⟩ :
          GlyphCluster) ∈ cs) ∧
    (∃ cs, shapeRun sampleEnv [7] missingArabicRun = .ok cs ∧
      (⟨missingArabicRun.start + 0, missingArabicRun.start + 0 + 1, [0],
        (sampleEnv.getFont missingArabicRun.attr.style.font).fallbackAdvance⟩ :
          GlyphCluster) ∈ cs) :=
  ⟨by rfl, by rfl,
    (missing_glyph_placeholder sampleEnv [7] missingRun 0 7 ShaperKind.simple
      (by rfl) (by rfl) (by rfl)).2,
    (missing_glyph_placeholder sampleEnv [7] missingArabicRun 0 7
      ShaperKind.complex (by rfl) (by rfl) (by rfl)).2⟩

/-- C6: `composeLines` never drops a run (the lines flatten back to the
visually ordered runs, a permutation of the input), every line is nonempty,
a run with a mandatory break at its start never continues an existing line
(for every maximum width, bounded or not), and a run too wide to fit even
alone stands alone on its line whenever the following boundaries are
breakable (overflow permitted, never dropped). -/
theorem compose_lines_break_policy (breaks : List BreakOpportunity)
    (maxWidth : Option Nat) (runs : List ShapedRun) :
    ((composeLines breaks maxWidth runs).map Line.runs).flatten
      = reorderVisual runs ∧
    (((composeLines breaks maxWidth runs).map Line.runs).flatten).Perm runs ∧
    (∀ l ∈ composeLines breaks maxWidth runs, l.runs ≠ []) ∧
    (∀ l ∈ composeLines breaks maxWidth runs, ∀ sr ∈ l.runs.tail,
      breakKindAt breaks sr.run.start ≠ .mandatory) ∧
    (∀ m, maxWidth = some m → ∀ l ∈ composeLines breaks maxWidth runs,
      ∀ r tl, l.runs = r :: tl → m < r.width →
      (∀ sr ∈ tl, breakKindAt breaks sr.run.start ≠ .prohibited) →
      tl = []) := by
  have hflat : ((composeLines breaks maxWidth runs).map Line.runs).flatten
      = reorderVisual runs := by
    unfold composeLines
    exact composeFrom_flatten breaks maxWidth (reorderVisual runs)
  have hlines := composeFrom_lines breaks maxWidth (reorderVisual runs)
  refine ⟨hflat, hflat ▸ reorderVisual_perm runs, ?_, ?_, ?_⟩
  · intro l hl
    obtain ⟨r, tl, hrt, _⟩ := hlines l hl
    rw [hrt]
    exact List.cons_ne_nil r tl
  · intro l hl sr hsr
    obtain ⟨r, tl, hrt, hok⟩ := hlines l hl
    rw [hrt] at hsr
    exact okFrom_no_mandatory hok sr (by simpa using hsr)
  · intro m hm l hl r tl hrt hwide hnp
    obtain ⟨r0, tl0, hrt0, hok⟩ := hlines l hl
    rw [hrt] at hrt0
    obtain ⟨hr0, htl0⟩ : r = r0 ∧ tl = tl0 := by
      have := hrt0
      injection this with h1 h2
      exact ⟨h1, h2⟩
    subst hr0
    subst htl0
    by_contra hne
    have hfits := okFrom_last_fits hok hne hnp
    rw [hm] at hfits
    simp only [fitsWidth, decide_eq_true_eq] at hfits
    omega

/-- Witness for C6 with a bounded width of 5, no break opportunities and
the all-LTR sample runs: the single produced line flattens back to the
input and its continuation run does not sit on a mandatory boundary. -/
theorem compose_lines_break_policy_witness :
    ((composeLines [] (some 5) ltrShaped).map Line.runs).flatten
      = reorderVisual ltrShaped ∧
    breakKindAt [] srC.run.start ≠ BreakKind.mandatory :=
  ⟨(compose_lines_break_policy [] (some 5) ltrShaped).1,
    (compose_lines_break_policy [] (some 5) ltrShaped).2.2.2.1
      ⟨ltrShaped⟩ (by decide) srC (by decide)⟩

/-- C8: every stage is a pure function of its immutable inputs: results
depend only on the buffer's content, so two invocations on buffers holding
the same codepoints (and, for the style-sensitive stages, the same styles)
yield identical results; `findBreaks` reads only the codepoints. -/
theorem stages_pure_deterministic (env : ShapingEnv) (maxWidth : Option Nat)
    (b1 b2 : TextBuffer) :
    (b1.codepoints = b2.codepoints →
      findBreaks env.tables b1 = findBreaks env.tables b2) ∧
    (b1.codepoints = b2.codepoints → b1.styles = b2.styles →
      segment env b1 = segment env b2 ∧
      processBuffer env b1 maxWidth = processBuffer env b2 maxWidth) := by
  obtain ⟨c1, s1⟩ := b1
  obtain ⟨c2, s2⟩ := b2
  constructor
  · intro hcp
    simp only at hcp
    subst hcp
    rfl
  · intro hcp hsty
    simp only at hcp hsty
    subst hcp
    subst hsty
    exact ⟨rfl, rfl⟩

/-- Witness for C8: the sample buffer and a style-stripped copy of it get
identical break sequences, and re-running the pipeline on the same buffer
reproduces the result. -/
theorem stages_pure_deterministic_witness :
    findBreaks sampleEnv.tables sampleBuffer
      = findBreaks sampleEnv.tables ⟨sampleBuffer.codepoints, []⟩ ∧
    processBuffer sampleEnv sampleBuffer none
      = processBuffer sampleEnv sampleBuffer none :=
  ⟨(stages_pure_deterministic sampleEnv none sampleBuffer
      ⟨sampleBuffer.codepoints, []⟩).1 rfl,
    ((stages_pure_deterministic sampleEnv none sampleBuffer sampleBuffer).2
      rfl rfl).2⟩

/-- C9: the empty buffer flows through the whole pipeline without error,
producing an empty run sequence, an empty break sequence and an empty line
sequence; and with no break points, unbounded width and all-LTR (level 0)
runs, `composeLines` yields exactly one line holding all runs in their
original order. -/
theorem empty_buffer_single_line (env : ShapingEnv) (maxWidth : Option Nat) :
    segment env ⟨[], []⟩ = .ok [] ∧
    findBreaks env.tables ⟨[], []⟩ = [] ∧
    composeLines [] maxWidth [] = [] ∧
    processBuffer env ⟨[], []⟩ maxWidth = .ok [] ∧
    (∀ (r : ShapedRun) (rs : List ShapedRun),
      (∀ sr ∈ r :: rs, sr.run.attr.level = 0) →
      composeLines [] none (r :: rs) = [⟨r :: rs⟩]) := by
  refine ⟨rfl, rfl, rfl, rfl, ?_⟩
  intro r rs hlev
  unfold composeLines
  rw [reorderVisual_id hlev]
  show composeFromFuel [] none (r :: rs).length (r :: rs) = [⟨r :: rs⟩]
  simp only [List.length_cons, composeFromFuel]
  rw [takeLineAux_nil_breaks]
  cases rs with
  | nil => rfl
  | cons r' more =>
      simp only [composeFromFuel_nil]

/-- Witness for C9: the empty buffer yields no lines and no error, and the
two all-LTR sample runs with no break points and unbounded width compose
into exactly one line in original order. -/
theorem empty_buffer_single_line_witness :
    processBuffer sampleEnv ⟨[], []⟩ none = .ok [] ∧
    composeLines [] none ltrShaped = [⟨ltrShaped⟩] :=
  ⟨(empty_buffer_single_line sampleEnv none).2.2.2.1,
    (empty_buffer_single_line sampleEnv none).2.2.2.2 srA [srC] (by decide)⟩

end Tehreer
